import Mathlib

/-!
Verification of the real-time message broker of the cli-chat repository.

The broker lives in `src/server.py`:

```python
class Broker:
    def __init__(self):
        self.subscribers: [int, dict[uuid.UUID, Queue]] = defaultdict(dict)

    def subscribe(self, chat_id: int, token: uuid.UUID) -> Queue:
        self.subscribers[chat_id][token] = Queue()
        return self.subscribers[chat_id][token]

    def unsubscribe(self, chat_id: int, token: uuid.UUID):
        self.subscribers[chat_id].pop(token)

    async def publish(self, chat_id: int, message: MessageInHistory):
        tasks = [sub.put(message) for sub in self.subscribers[chat_id].values()]
        await asyncio.gather(*tasks)
```

Python dictionaries are embedded as insertion-ordered association lists
(`alist` below); `defaultdict` access is the `alist.touch` operation, which
inserts an empty entry on first access.  `asyncio.Queue` instances are
unbounded FIFO queues, embedded as `List` with enqueue at the tail.
-/

namespace CliChat

/-- Embedding of `models.UserPublic` (fields `id`, `name`). -/
structure UserPublic where
  id : Int
  name : String
deriving DecidableEq, Repr

/-- Embedding of `models.MessageInHistory` (fields `text`, `timestamp`, `user`);
timestamps are abstracted to integers. -/
structure MessageInHistory where
  text : String
  timestamp : Int
  user : UserPublic
deriving DecidableEq, Repr

namespace alist

/-- Python `d[k]` lookup (as an `Option`): first binding of `k`. -/
def get? {K V : Type} [DecidableEq K] : List (K × V) → K → Option V
  | [], _ => none
  | kv :: rest, k => if kv.1 = k then some kv.2 else get? rest k

/-- Python `d[k] = v`: update in place if the key is present (keeping its
position, as Python dicts do), otherwise append at the end. -/
def set {K V : Type} [DecidableEq K] : List (K × V) → K → V → List (K × V)
  | [], k, v => [(k, v)]
  | kv :: rest, k, v => if kv.1 = k then (k, v) :: rest else kv :: set rest k v

/-- Python `d.pop(k)` state change: remove the binding of `k`.  (Python dict
keys are unique, so removing every binding of `k` is the same operation.) -/
def pop {K V : Type} [DecidableEq K] (m : List (K × V)) (k : K) : List (K × V) :=
  m.filter (fun kv => decide (kv.1 ≠ k))

/-- Python `defaultdict` access `d[k]` as a state change: insert `v` under `k`
if `k` is absent, otherwise leave the dict unchanged. -/
def touch {K V : Type} [DecidableEq K] (m : List (K × V)) (k : K) (v : V) :
    List (K × V) :=
  match get? m k with
  | some _ => m
  | none => m ++ [(k, v)]

end alist

/-- Embedding of `Broker.__init__`: `self.subscribers` is a
`defaultdict(dict)` from chat id to (token → queue).  Tokens (`uuid.UUID`)
are abstracted to naturals; queues are their current contents. -/
structure Broker where
  subscribers : List (Int × List (Nat × List MessageInHistory))
deriving DecidableEq, Repr

namespace Broker

/-- The freshly constructed broker: `defaultdict(dict)` is empty. -/
def init : Broker := ⟨[]⟩

/-- Embedding of `Broker.subscribe`: `self.subscribers[chat_id][token] = Queue()`
(the `defaultdict` access creates the room entry if absent), returning the
fresh queue.  In `server.py` the token is minted by the caller
(`get_chat_stream`). -/
def subscribe (b : Broker) (chat_id : Int) (token : Nat) :
    Broker × List MessageInHistory :=
  let subs := alist.touch b.subscribers chat_id []
  let room := (alist.get? subs chat_id).getD []
  (⟨alist.set subs chat_id (alist.set room token [])⟩, [])

/-- Embedding of `Broker.unsubscribe`: `self.subscribers[chat_id].pop(token)`.
The `defaultdict` access creates the room entry if absent; `pop` then raises
`KeyError` when the token is not present.  The returned `Bool` is `true` when
`pop` succeeds and `false` when it raises; the broker state after the
`defaultdict` access is returned in either case. -/
def unsubscribe (b : Broker) (chat_id : Int) (token : Nat) : Broker × Bool :=
  let subs := alist.touch b.subscribers chat_id []
  let room := (alist.get? subs chat_id).getD []
  match alist.get? room token with
  | some _ => (⟨alist.set subs chat_id (alist.pop room token)⟩, true)
  | none => (⟨subs⟩, false)

/-- Embedding of `Broker.publish` run to completion: the `defaultdict` access
creates the room entry if absent, and the awaited `gather` of
`sub.put(message)` appends the message to every queue of the room (the queues
are unbounded, so every `put` completes). -/
def publish (b : Broker) (chat_id : Int) (message : MessageInHistory) :
    Broker :=
  let subs := alist.touch b.subscribers chat_id []
  let room := (alist.get? subs chat_id).getD []
  ⟨alist.set subs chat_id (room.map (fun kv => (kv.1, kv.2 ++ [message])))⟩

/-- Contents of the queue registered for `token` in the room `chat_id`
(`none` when the token has no registered queue). -/
def queueOf (b : Broker) (chat_id : Int) (token : Nat) :
    Option (List MessageInHistory) :=
  alist.get? ((alist.get? b.subscribers chat_id).getD []) token

/-- Whether the registry has an entry (possibly empty) for the room. -/
def hasRoom (b : Broker) (chat_id : Int) : Bool :=
  (alist.get? b.subscribers chat_id).isSome

/-- The (token → queue) mapping currently held for a room, `[]` when the
room has no registry entry yet. -/
def roomOf (b : Broker) (c : Int) : List (Nat × List MessageInHistory) :=
  (alist.get? b.subscribers c).getD []

end Broker

/-- One sequential broker operation. -/
inductive BrokerOp where
  | sub (chat_id : Int) (token : Nat)
  | unsub (chat_id : Int) (token : Nat)
  | pub (chat_id : Int) (msg : MessageInHistory)
deriving DecidableEq, Repr

namespace Broker

/-- Apply one operation to the broker state. -/
def step (b : Broker) : BrokerOp → Broker
  | .sub c t => (b.subscribe c t).1
  | .unsub c t => (b.unsubscribe c t).1
  | .pub c m => b.publish c m

/-- Run a sequence of operations. -/
def run (b : Broker) (ops : List BrokerOp) : Broker := ops.foldl step b

/-- The messages published to room `c` by a sequence of operations, in
publish order. -/
def pubsTo (c : Int) (ops : List BrokerOp) : List MessageInHistory :=
  ops.filterMap (fun op => match op with
    | .pub c2 m => if c2 = c then some m else none
    | _ => none)

end Broker

/-- Sample message value used in concrete scenarios. -/
def msgHi : MessageInHistory := ⟨"hi", 0, ⟨1, "alice"⟩⟩

/-- Second sample message value used in concrete scenarios. -/
def msgBye : MessageInHistory := ⟨"bye", 1, ⟨2, "bob"⟩⟩

/-- How the websocket listen loop of `ws_listen_to_chat` ends.  The loop
`while True: msg = await stream.get(); await ws.send_text(msg.json())` is
infinite, so it only terminates when an exception reaches it: a
`WebSocketDisconnect`, another transport/send error, or a cancellation of
the session's task. -/
inductive SessionExit where
  | wsDisconnect
  | transportError
  | cancelled
deriving DecidableEq, Repr

/-- Outcome of a Python block: normal completion or a propagating
exception. -/
inductive PyResult where
  | ok
  | exn (e : SessionExit)
deriving DecidableEq, Repr

/-- Embedding of the `ws_listen_to_chat` handler body after dependency
setup: the `try ... except WebSocketDisconnect: pass` around the listen
loop turns a disconnect into a normal return, while a transport error or a
cancellation propagates out of the handler. -/
def ws_listen_body (e : SessionExit) : PyResult :=
  match e with
  | .wsDisconnect => .ok
  | .transportError => .exn .transportError
  | .cancelled => .exn .cancelled

/-- Embedding of one whole listen session.  The `get_chat_stream`
dependency mints a fresh token, subscribes it, and yields the queue inside
`try: yield broker.subscribe(chat.id, token) finally:
broker.unsubscribe(chat.id, token)`; the dependency teardown resumes the
generator exactly once when the handler returns, raises, or is cancelled,
so the `finally` block runs on every exit path.  The handler body touches
only its queue and the websocket, never the broker.  Returns the final
broker, the handler outcome, and the ordered log of broker calls made by
the session. -/
def listen_session (b : Broker) (c : Int) (t : Nat) (e : SessionExit) :
    Broker × PyResult × List BrokerOp :=
  let subscribed := b.subscribe c t
  let result := ws_listen_body e
  let cleaned := (subscribed.1).unsubscribe c t
  (cleaned.1, result, [BrokerOp.sub c t, BrokerOp.unsub c t])

/-- Embedding of a row of the `messages` table of `db.py` (fields `id`,
`chat_id`, `user_id`, `text`, `timestamp`). -/
structure MessageRow where
  id : Nat
  chat_id : Int
  user_id : Int
  text : String
  timestamp : Int
deriving DecidableEq, Repr

/-- Embedding of the relational store: the committed message rows plus the
autoincrement counter. -/
structure DB where
  messages : List MessageRow
  nextMessageId : Nat
deriving DecidableEq, Repr

/-- Embedding of `crud.create_message`: build the row, `ses.add(message)`,
then `ses.commit()`; the returned store is the committed one and the row is
returned to the caller. -/
def create_message (db : DB) (text : String) (user_id chat_id : Int)
    (now : Int) : DB × MessageRow :=
  let message : MessageRow := ⟨db.nextMessageId, chat_id, user_id, text, now⟩
  (⟨db.messages ++ [message], db.nextMessageId + 1⟩, message)

/-- Embedding of `MessageInHistory.from_orm` applied to a message row. -/
def from_orm (row : MessageRow) (user : UserPublic) : MessageInHistory :=
  ⟨row.text, row.timestamp, user⟩

/-- Observable events of the message-post endpoint, in the order they
happen. -/
inductive ServerEvent where
  | commit (row : MessageRow)
  | publishInvoked (chat_id : Int) (msg : MessageInHistory)
deriving DecidableEq, Repr

/-- Embedding of the `post_message_to_chat` endpoint:
`msg = crud.create_message(ses, message, user.id, chat.id)` (which
commits), then `msg = MessageInHistory.from_orm(msg)`, then
`await broker.publish(chat.id, msg)`, then `return msg`; together with the
ordered event log of the request. -/
def post_message_to_chat (db : DB) (b : Broker) (text : String)
    (user : UserPublic) (chat_id : Int) (now : Int) :
    DB × Broker × MessageInHistory × List ServerEvent :=
  let created := create_message db text user.id chat_id now
  let msg := from_orm created.2 user
  (created.1, b.publish chat_id msg, msg,
    [ServerEvent.commit created.2, ServerEvent.publishInvoked chat_id msg])

/-- One in-flight `Broker.publish` coroutine of the interleaved (asyncio)
semantics.  `snapshot` holds the queue ids captured by the list
comprehension
`[sub.put(message) for sub in self.subscribers[chat_id].values()]` at call
time; `remaining` holds the queue ids whose scheduled `put` tasks have not
run yet (the event loop runs the tasks of one `gather` in list order, but
other coroutines may run in between). -/
structure PendingPub where
  chat_id : Int
  msg : MessageInHistory
  snapshot : List Nat
  remaining : List Nat
deriving DecidableEq, Repr

/-- Configuration of the interleaved semantics.  Queues live in a heap
addressed by queue id because a queue object outlives its registry entry: a
pending `put` task holds a direct reference to its queue, so it can still
enqueue after the owning token has unsubscribed. -/
structure Config where
  nextQ : Nat
  heap : List (Nat × List MessageInHistory)
  registry : List (Int × List (Nat × Nat))
  pending : List PendingPub
deriving DecidableEq, Repr

/-- Atomic events of the interleaved semantics: `subscribe` and
`unsubscribe` contain no await point, so they are single events; a
`publish` splits into its synchronous snapshot (`pubStart`) followed by one
`pubPut` per snapshotted queue, around which the event loop may interleave
other events.  The publish returns (its `gather` completes) once its
`remaining` list is empty. -/
inductive Act where
  | sub (chat_id : Int) (token : Nat)
  | unsub (chat_id : Int) (token : Nat)
  | pubStart (chat_id : Int) (msg : MessageInHistory)
  | pubPut (i : Nat)
deriving DecidableEq, Repr

namespace Config

/-- Startup configuration: empty heap, empty registry, nothing pending. -/
def start : Config := ⟨0, [], [], []⟩

/-- Execute one event, when it is enabled: subscribing allocates a fresh
queue and registers it; unsubscribing pops the token (disabled exactly when
`pop` would raise `KeyError`); `pubStart` performs the `defaultdict` access
and snapshots the room's queue ids; `pubPut i` runs the next scheduled
`put` task of the `i`-th pending publish, which appends the message to the
referenced queue (the queue is unbounded, so the `put` always completes). -/
def doAct (cfg : Config) : Act → Option Config
  | .sub c t =>
    let q := cfg.nextQ
    let reg := alist.touch cfg.registry c []
    let room := (alist.get? reg c).getD []
    some ⟨q + 1, cfg.heap ++ [(q, [])],
      alist.set reg c (alist.set room t q), cfg.pending⟩
  | .unsub c t =>
    let reg := alist.touch cfg.registry c []
    let room := (alist.get? reg c).getD []
    match alist.get? room t with
    | some _ =>
      some ⟨cfg.nextQ, cfg.heap, alist.set reg c (alist.pop room t),
        cfg.pending⟩
    | none => none
  | .pubStart c m =>
    let reg := alist.touch cfg.registry c []
    let room := (alist.get? reg c).getD []
    let snap := room.map (fun kv => kv.2)
    some ⟨cfg.nextQ, cfg.heap, reg, cfg.pending ++ [⟨c, m, snap, snap⟩]⟩
  | .pubPut i =>
    match cfg.pending.get? i with
    | some p =>
      match p.remaining with
      | [] => none
      | q :: rest =>
        some ⟨cfg.nextQ,
          alist.set cfg.heap q ((alist.get? cfg.heap q).getD [] ++ [p.msg]),
          cfg.registry,
          cfg.pending.set i ⟨p.chat_id, p.msg, p.snapshot, rest⟩⟩
    | none => none

/-- Run a list of events in order; `none` when some event is disabled. -/
def runActs (cfg : Config) : List Act → Option Config
  | [] => some cfg
  | a :: rest =>
    match cfg.doAct a with
    | some cfg2 => runActs cfg2 rest
    | none => none

/-- The event enqueues a message into a queue that no token of the
publish's room currently maps to — a delivery to a removed token. -/
def deliversToRemoved (cfg : Config) (a : Act) : Bool :=
  match a with
  | .pubPut i =>
    match cfg.pending.get? i with
    | some p =>
      match p.remaining with
      | q :: _ =>
        ((alist.get? cfg.registry p.chat_id).getD []).all
          (fun kv => decide (kv.2 ≠ q))
      | [] => false
    | none => false
  | _ => false

/-- Invariants of reachable configurations: a pending publish only ever
puts into queues of its own snapshot; a snapshotted queue whose `put` has
already run contains the published message; every queue id held by the
registry or by a snapshot has been allocated (is below `nextQ`). -/
def Good (cfg : Config) : Prop :=
  (∀ p ∈ cfg.pending, ∀ q ∈ p.remaining, q ∈ p.snapshot) ∧
  (∀ p ∈ cfg.pending, ∀ q ∈ p.snapshot, q ∉ p.remaining →
    p.msg ∈ (alist.get? cfg.heap q).getD []) ∧
  (∀ rm ∈ cfg.registry, ∀ kv ∈ rm.2, kv.2 < cfg.nextQ) ∧
  (∀ p ∈ cfg.pending, ∀ q ∈ p.snapshot, q < cfg.nextQ) ∧
  (∀ hq ∈ cfg.heap, hq.1 < cfg.nextQ)

end Config

/-- The configuration reached by subscribing token 5 to room 1, starting a
publish of `msgHi` (snapshot taken, `put` task scheduled), then
unsubscribing token 5 before the `put` task runs. -/
def cfgC3 : Config := ⟨1, [(0, [])], [(1, [])], [⟨1, msgHi, [0], [0]⟩]⟩

/-- The configuration reached by subscribing token 5 to room 1, starting a
publish of `msgHi`, and running its single `put` task to completion. -/
def cfgC4 : Config :=
  ⟨1, [(0, [msgHi])], [(1, [(5, 0)])], [⟨1, msgHi, [0], []⟩]⟩

namespace alist

theorem get?_set_self {K V : Type} [DecidableEq K] (m : List (K × V)) (k : K)
    (v : V) : get? (set m k v) k = some v := by
  induction m with
  | nil => simp [set, get?]
  | cons kv rest ih =>
    by_cases h : kv.1 = k
    · simp [set, h, get?]
    · simp [set, h, get?, ih]

theorem get?_set_ne {K V : Type} [DecidableEq K] (m : List (K × V))
    (k k' : K) (v : V) (h : k' ≠ k) : get? (set m k v) k' = get? m k' := by
  induction m with
  | nil => simp [set, get?, Ne.symm h]
  | cons kv rest ih =>
    by_cases hk : kv.1 = k
    · subst hk
      simp [set, get?, Ne.symm h]
    · by_cases hk' : kv.1 = k' <;> simp [set, hk, get?, hk', ih, h]

theorem get?_pop_self {K V : Type} [DecidableEq K] (m : List (K × V))
    (k : K) : get? (pop m k) k = none := by
  induction m with
  | nil => simp [pop, get?]
  | cons kv rest ih =>
    by_cases h : kv.1 = k
    · simpa [pop, List.filter_cons, h] using ih
    · simpa [pop, List.filter_cons, get?, h] using ih

theorem get?_pop_ne {K V : Type} [DecidableEq K] (m : List (K × V))
    (k k' : K) (h : k' ≠ k) : get? (pop m k) k' = get? m k' := by
  induction m with
  | nil => rfl
  | cons kv rest ih =>
    by_cases hk : kv.1 = k
    · have h1 : pop (kv :: rest) k = pop rest k := by
        simp [pop, List.filter_cons, hk]
      rw [h1, ih, get?]
      have h2 : ¬ kv.1 = k' := by rw [hk]; exact Ne.symm h
      simp [h2]
    · have h1 : pop (kv :: rest) k = kv :: pop rest k := by
        simp [pop, List.filter_cons, hk]
      rw [h1]
      by_cases hk' : kv.1 = k' <;> simp [get?, hk', ih]

theorem get?_append {K V : Type} [DecidableEq K] (m l : List (K × V))
    (k : K) : get? (m ++ l) k =
      match get? m k with
      | some v => some v
      | none => get? l k := by
  induction m with
  | nil => simp [get?]
  | cons kv rest ih =>
    by_cases h : kv.1 = k <;> simp [get?, h, ih]

theorem get?_touch_ne {K V : Type} [DecidableEq K] (m : List (K × V))
    (k k' : K) (v : V) (h : k' ≠ k) : get? (touch m k v) k' = get? m k' := by
  unfold touch
  cases hm : get? m k with
  | some w => rfl
  | none =>
    rw [get?_append]
    cases hm' : get? m k' with
    | some w => rfl
    | none => simp [get?, Ne.symm h]

theorem get?_touch_self {K V : Type} [DecidableEq K] (m : List (K × V))
    (k : K) (v : V) : get? (touch m k v) k = some ((get? m k).getD v) := by
  unfold touch
  cases hm : get? m k with
  | some w => simp [hm]
  | none => simp [get?_append, hm, get?]

theorem get?_mapVal {K V W : Type} [DecidableEq K] (m : List (K × V))
    (f : V → W) (k : K) :
    get? (m.map (fun kv => (kv.1, f kv.2))) k = (get? m k).map f := by
  induction m with
  | nil => simp [get?]
  | cons kv rest ih =>
    by_cases h : kv.1 = k <;> simp [get?, h, ih]

theorem set_self_of_get? {K V : Type} [DecidableEq K] (m : List (K × V))
    (k : K) (v : V) (h : get? m k = some v) : set m k v = m := by
  induction m with
  | nil => simp [get?] at h
  | cons kv rest ih =>
    by_cases hk : kv.1 = k
    · rw [get?, if_pos hk] at h
      have hv : v = kv.2 := by injection h with h2; exact h2.symm
      subst hv
      rw [set, if_pos hk, ← hk]
    · rw [get?, if_neg hk] at h
      rw [set, if_neg hk, ih h]

theorem mem_set {K V : Type} [DecidableEq K] (m : List (K × V)) (k : K)
    (v : V) (kv : K × V) (h : kv ∈ set m k v) : kv ∈ m ∨ kv = (k, v) := by
  induction m with
  | nil => simp [set] at h; simp [h]
  | cons kv2 rest ih =>
    by_cases hk : kv2.1 = k
    · rw [set, if_pos hk] at h
      rcases List.mem_cons.mp h with h1 | h1
      · exact Or.inr h1
      · exact Or.inl (List.mem_cons_of_mem _ h1)
    · rw [set, if_neg hk] at h
      rcases List.mem_cons.mp h with h1 | h1
      · exact Or.inl (h1 ▸ List.mem_cons_self _ _)
      · rcases ih h1 with h2 | h2
        · exact Or.inl (List.mem_cons_of_mem _ h2)
        · exact Or.inr h2

theorem mem_touch {K V : Type} [DecidableEq K] (m : List (K × V)) (k : K)
    (v : V) (kv : K × V) (h : kv ∈ touch m k v) : kv ∈ m ∨ kv = (k, v) := by
  unfold touch at h
  cases hm : get? m k with
  | some w => rw [hm] at h; exact Or.inl h
  | none =>
    rw [hm] at h
    rcases List.mem_append.mp h with h1 | h1
    · exact Or.inl h1
    · exact Or.inr (List.mem_singleton.mp h1)

theorem mem_pop {K V : Type} [DecidableEq K] (m : List (K × V)) (k : K)
    (kv : K × V) (h : kv ∈ pop m k) : kv ∈ m :=
  List.mem_of_mem_filter h

theorem get?_append_of_some {K V : Type} [DecidableEq K] (m l : List (K × V))
    (k : K) (v : V) (h : get? m k = some v) : get? (m ++ l) k = some v := by
  rw [get?_append, h]

theorem get?_append_of_none {K V : Type} [DecidableEq K] (m l : List (K × V))
    (k : K) (h : get? m k = none) : get? (m ++ l) k = get? l k := by
  rw [get?_append, h]

theorem getD_touch {K V : Type} [DecidableEq K] (m : List (K × V)) (k : K)
    (v : V) : (get? (touch m k v) k).getD v = (get? m k).getD v := by
  rw [get?_touch_self]
  cases hm : get? m k <;> simp

theorem get?_eq_none {K V : Type} [DecidableEq K] (m : List (K × V)) (k : K)
    (h : ∀ kv ∈ m, kv.1 ≠ k) : get? m k = none := by
  induction m with
  | nil => rfl
  | cons kv rest ih =>
    rw [get?, if_neg (h kv (List.mem_cons_self _ _))]
    exact ih (fun kv2 hm => h kv2 (List.mem_cons_of_mem _ hm))

theorem get?_mem {K V : Type} [DecidableEq K] (m : List (K × V)) (k : K)
    (v : V) (h : get? m k = some v) : (k, v) ∈ m := by
  induction m with
  | nil => simp [get?] at h
  | cons kv rest ih =>
    by_cases hk : kv.1 = k
    · rw [get?, if_pos hk] at h
      have hv : kv.2 = v := by injection h
      rw [← hk, ← hv]
      exact List.mem_cons_self _ _
    · rw [get?, if_neg hk] at h
      exact List.mem_cons_of_mem _ (ih h)

end alist

namespace Broker

theorem queueOf_eq_roomOf (b : Broker) (c : Int) (t : Nat) :
    b.queueOf c t = alist.get? (b.roomOf c) t := rfl

theorem roomOf_touch (b : Broker) (c c2 : Int) :
    Broker.roomOf ⟨alist.touch b.subscribers c []⟩ c2 = b.roomOf c2 := by
  unfold roomOf
  by_cases hc : c2 = c
  · subst hc
    rw [alist.get?_touch_self]
    cases hm : alist.get? b.subscribers c2 <;> simp
  · rw [alist.get?_touch_ne _ _ _ _ hc]

theorem roomOf_mk_set_self (subs : List (Int × List (Nat × List MessageInHistory)))
    (c : Int) (room : List (Nat × List MessageInHistory)) :
    Broker.roomOf ⟨alist.set subs c room⟩ c = room := by
  unfold roomOf
  rw [alist.get?_set_self]
  rfl

theorem roomOf_mk_set_ne (subs : List (Int × List (Nat × List MessageInHistory)))
    (c c2 : Int) (room : List (Nat × List MessageInHistory)) (h : c2 ≠ c) :
    Broker.roomOf ⟨alist.set subs c room⟩ c2 = Broker.roomOf ⟨subs⟩ c2 := by
  unfold roomOf
  rw [alist.get?_set_ne _ _ _ _ h]

theorem roomOf_subscribe_self (b : Broker) (c : Int) (t : Nat) :
    ((b.subscribe c t).1).roomOf c = alist.set (b.roomOf c) t [] := by
  unfold subscribe
  rw [roomOf_mk_set_self]
  rw [show (alist.get? (alist.touch b.subscribers c []) c).getD []
      = Broker.roomOf ⟨alist.touch b.subscribers c []⟩ c from rfl]
  rw [roomOf_touch]

theorem roomOf_subscribe_ne (b : Broker) (c : Int) (t : Nat) (c2 : Int)
    (h : c2 ≠ c) : ((b.subscribe c t).1).roomOf c2 = b.roomOf c2 := by
  unfold subscribe
  rw [roomOf_mk_set_ne _ _ _ _ h, roomOf_touch]

theorem roomOf_unsubscribe_self (b : Broker) (c : Int) (t : Nat) :
    ((b.unsubscribe c t).1).roomOf c =
      match alist.get? (b.roomOf c) t with
      | some _ => alist.pop (b.roomOf c) t
      | none => b.roomOf c := by
  simp only [unsubscribe]
  rw [show (alist.get? (alist.touch b.subscribers c []) c).getD [] = b.roomOf c
    from roomOf_touch b c c]
  cases hr : alist.get? (b.roomOf c) t with
  | some q => exact roomOf_mk_set_self _ _ _
  | none => exact roomOf_touch b c c

theorem roomOf_unsubscribe_ne (b : Broker) (c : Int) (t : Nat) (c2 : Int)
    (h : c2 ≠ c) : ((b.unsubscribe c t).1).roomOf c2 = b.roomOf c2 := by
  simp only [unsubscribe]
  rw [show (alist.get? (alist.touch b.subscribers c []) c).getD [] = b.roomOf c
    from roomOf_touch b c c]
  cases hr : alist.get? (b.roomOf c) t with
  | some q => exact (roomOf_mk_set_ne _ _ _ _ h).trans (roomOf_touch b c c2)
  | none => exact roomOf_touch b c c2

theorem roomOf_publish_self (b : Broker) (c : Int) (m : MessageInHistory) :
    (b.publish c m).roomOf c =
      (b.roomOf c).map (fun kv => (kv.1, kv.2 ++ [m])) := by
  unfold publish
  rw [roomOf_mk_set_self]
  rw [show (alist.get? (alist.touch b.subscribers c []) c).getD []
      = Broker.roomOf ⟨alist.touch b.subscribers c []⟩ c from rfl]
  rw [roomOf_touch]

theorem roomOf_publish_ne (b : Broker) (c : Int) (m : MessageInHistory)
    (c2 : Int) (h : c2 ≠ c) : (b.publish c m).roomOf c2 = b.roomOf c2 := by
  unfold publish
  rw [roomOf_mk_set_ne _ _ _ _ h, roomOf_touch]

theorem queueOf_subscribe_self (b : Broker) (c : Int) (t : Nat) :
    ((b.subscribe c t).1).queueOf c t = some [] := by
  rw [queueOf_eq_roomOf, roomOf_subscribe_self, alist.get?_set_self]

theorem queueOf_subscribe_ne (b : Broker) (c : Int) (t : Nat) (c2 : Int)
    (t2 : Nat) (h : ¬(c2 = c ∧ t2 = t)) :
    ((b.subscribe c t).1).queueOf c2 t2 = b.queueOf c2 t2 := by
  by_cases hc : c2 = c
  · subst hc
    have ht : t2 ≠ t := fun ht => h ⟨rfl, ht⟩
    rw [queueOf_eq_roomOf, roomOf_subscribe_self,
      alist.get?_set_ne _ _ _ _ ht, queueOf_eq_roomOf]
  · rw [queueOf_eq_roomOf, roomOf_subscribe_ne _ _ _ _ hc, queueOf_eq_roomOf]

theorem queueOf_unsubscribe_self (b : Broker) (c : Int) (t : Nat) :
    ((b.unsubscribe c t).1).queueOf c t = none := by
  rw [queueOf_eq_roomOf, roomOf_unsubscribe_self]
  cases hr : alist.get? (b.roomOf c) t with
  | some q => simp [alist.get?_pop_self]
  | none => simpa using hr

theorem queueOf_unsubscribe_ne (b : Broker) (c : Int) (t : Nat) (c2 : Int)
    (t2 : Nat) (h : ¬(c2 = c ∧ t2 = t)) :
    ((b.unsubscribe c t).1).queueOf c2 t2 = b.queueOf c2 t2 := by
  by_cases hc : c2 = c
  · subst hc
    have ht : t2 ≠ t := fun ht => h ⟨rfl, ht⟩
    rw [queueOf_eq_roomOf, roomOf_unsubscribe_self, queueOf_eq_roomOf]
    cases hr : alist.get? (b.roomOf c2) t with
    | some q => simp [alist.get?_pop_ne _ _ _ ht]
    | none => rfl
  · rw [queueOf_eq_roomOf, roomOf_unsubscribe_ne _ _ _ _ hc, queueOf_eq_roomOf]

theorem queueOf_publish_self (b : Broker) (c : Int) (m : MessageInHistory)
    (t : Nat) :
    (b.publish c m).queueOf c t = (b.queueOf c t).map (fun q => q ++ [m]) := by
  rw [queueOf_eq_roomOf, roomOf_publish_self,
    alist.get?_mapVal (b.roomOf c) (fun q => q ++ [m]) t, queueOf_eq_roomOf]

theorem queueOf_publish_ne (b : Broker) (c : Int) (m : MessageInHistory)
    (c2 : Int) (t : Nat) (h : c2 ≠ c) :
    (b.publish c m).queueOf c2 t = b.queueOf c2 t := by
  rw [queueOf_eq_roomOf, roomOf_publish_ne _ _ _ _ h, queueOf_eq_roomOf]

/-- Core delivery lemma: as long as a token's subscription is not touched,
running any operation sequence appends to its queue exactly the messages
published to its room, in order. -/
theorem queueOf_run (b : Broker) (c : Int) (t : Nat)
    (q : List MessageInHistory) (ops : List BrokerOp)
    (hq : b.queueOf c t = some q)
    (h : ∀ op ∈ ops, op ≠ BrokerOp.sub c t ∧ op ≠ BrokerOp.unsub c t) :
    (b.run ops).queueOf c t = some (q ++ pubsTo c ops) := by
  induction ops generalizing b q with
  | nil => simpa [run, pubsTo]
  | cons op rest ih =>
    have hop := h op (List.mem_cons_self op rest)
    have hrest : ∀ op2 ∈ rest, op2 ≠ BrokerOp.sub c t ∧ op2 ≠ BrokerOp.unsub c t :=
      fun op2 hm => h op2 (List.mem_cons_of_mem op hm)
    cases op with
    | sub c2 t2 =>
      have hne : ¬(c2 = c ∧ t2 = t) := by
        rintro ⟨rfl, rfl⟩; exact hop.1 rfl
      have hstep : (b.step (BrokerOp.sub c2 t2)).queueOf c t = some q := by
        rw [show b.step (BrokerOp.sub c2 t2) = (b.subscribe c2 t2).1 from rfl]
        rw [queueOf_subscribe_ne b c2 t2 c t
          (fun hh => hne ⟨hh.1.symm, hh.2.symm⟩)]
        exact hq
      have := ih (b.step (BrokerOp.sub c2 t2)) q hstep hrest
      simpa [run, pubsTo] using this
    | unsub c2 t2 =>
      have hne : ¬(c2 = c ∧ t2 = t) := by
        rintro ⟨rfl, rfl⟩; exact hop.2 rfl
      have hstep : (b.step (BrokerOp.unsub c2 t2)).queueOf c t = some q := by
        rw [show b.step (BrokerOp.unsub c2 t2) = (b.unsubscribe c2 t2).1 from rfl]
        rw [queueOf_unsubscribe_ne b c2 t2 c t
          (fun hh => hne ⟨hh.1.symm, hh.2.symm⟩)]
        exact hq
      have := ih (b.step (BrokerOp.unsub c2 t2)) q hstep hrest
      simpa [run, pubsTo] using this
    | pub c2 m =>
      by_cases hc : c2 = c
      · subst hc
        have hstep : (b.step (BrokerOp.pub c2 m)).queueOf c2 t = some (q ++ [m]) := by
          rw [show b.step (BrokerOp.pub c2 m) = b.publish c2 m from rfl]
          rw [queueOf_publish_self, hq]
          rfl
        have := ih (b.step (BrokerOp.pub c2 m)) (q ++ [m]) hstep hrest
        simpa [run, pubsTo, List.append_assoc] using this
      · have hstep : (b.step (BrokerOp.pub c2 m)).queueOf c t = some q := by
          rw [show b.step (BrokerOp.pub c2 m) = b.publish c2 m from rfl]
          rw [queueOf_publish_ne b c2 m c t (fun hh => hc hh.symm)]
          exact hq
        have := ih (b.step (BrokerOp.pub c2 m)) q hstep hrest
        simpa [run, pubsTo, hc] using this

/-- Once a token has no registered queue in a room, no operation other than a
subscribe of that very token can give it one. -/
theorem queueOf_run_none (b : Broker) (c : Int) (t : Nat) (ops : List BrokerOp)
    (hq : b.queueOf c t = none)
    (h : ∀ op ∈ ops, op ≠ BrokerOp.sub c t) :
    (b.run ops).queueOf c t = none := by
  induction ops generalizing b with
  | nil => simpa [run]
  | cons op rest ih =>
    have hop := h op (List.mem_cons_self op rest)
    have hrest : ∀ op2 ∈ rest, op2 ≠ BrokerOp.sub c t :=
      fun op2 hm => h op2 (List.mem_cons_of_mem op hm)
    have hstep : (b.step op).queueOf c t = none := by
      cases op with
      | sub c2 t2 =>
        have hne : ¬(c2 = c ∧ t2 = t) := by
          rintro ⟨rfl, rfl⟩; exact hop rfl
        rw [show b.step (BrokerOp.sub c2 t2) = (b.subscribe c2 t2).1 from rfl]
        rw [queueOf_subscribe_ne b c2 t2 c t
          (fun hh => hne ⟨hh.1.symm, hh.2.symm⟩)]
        exact hq
      | unsub c2 t2 =>
        by_cases hne : c2 = c ∧ t2 = t
        · obtain ⟨rfl, rfl⟩ := hne
          exact queueOf_unsubscribe_self b c2 t2
        · rw [show b.step (BrokerOp.unsub c2 t2) = (b.unsubscribe c2 t2).1 from rfl]
          rw [queueOf_unsubscribe_ne b c2 t2 c t
            (fun hh => hne ⟨hh.1.symm, hh.2.symm⟩)]
          exact hq
      | pub c2 m =>
        by_cases hc : c2 = c
        · subst hc
          rw [show b.step (BrokerOp.pub c2 m) = b.publish c2 m from rfl]
          rw [queueOf_publish_self, hq]
          rfl
        · rw [show b.step (BrokerOp.pub c2 m) = b.publish c2 m from rfl]
          rw [queueOf_publish_ne b c2 m c t (fun hh => hc hh.symm)]
          exact hq
    have := ih (b.step op) hstep hrest
    simpa [run] using this

theorem unsubscribe_raises (b : Broker) (c : Int) (t : Nat)
    (h : b.queueOf c t = none) : (b.unsubscribe c t).2 = false := by
  simp only [unsubscribe]
  rw [show (alist.get? (alist.touch b.subscribers c []) c).getD [] = b.roomOf c
    from roomOf_touch b c c]
  rw [show alist.get? (b.roomOf c) t = none from h]

theorem unsubscribe_raise_preserves (b : Broker) (c : Int) (t : Nat)
    (h : b.queueOf c t = none) (c2 : Int) (t2 : Nat) :
    (b.unsubscribe c t).1.queueOf c2 t2 = b.queueOf c2 t2 := by
  by_cases hq : c2 = c ∧ t2 = t
  · obtain ⟨rfl, rfl⟩ := hq
    rw [queueOf_unsubscribe_self]
    exact h.symm
  · exact queueOf_unsubscribe_ne b c t c2 t2 hq

theorem hasRoom_mk_set_touch (b : Broker) (c c2 : Int)
    (X : List (Nat × List MessageInHistory)) (h : b.hasRoom c = true) :
    Broker.hasRoom ⟨alist.set (alist.touch b.subscribers c2 []) c2 X⟩ c
      = true := by
  by_cases hc : c = c2
  · subst hc
    simp [hasRoom, alist.get?_set_self]
  · unfold hasRoom at h ⊢
    rw [alist.get?_set_ne _ _ _ _ hc, alist.get?_touch_ne _ _ _ _ hc]
    exact h

theorem hasRoom_mk_touch (b : Broker) (c c2 : Int) (h : b.hasRoom c = true) :
    Broker.hasRoom ⟨alist.touch b.subscribers c2 []⟩ c = true := by
  by_cases hc : c = c2
  · subst hc
    simp [hasRoom, alist.get?_touch_self]
  · unfold hasRoom at h ⊢
    rw [alist.get?_touch_ne _ _ _ _ hc]
    exact h

theorem hasRoom_subscribe_self (b : Broker) (c : Int) (t : Nat) :
    ((b.subscribe c t).1).hasRoom c = true := by
  simp [subscribe, hasRoom, alist.get?_set_self]

theorem hasRoom_publish_self (b : Broker) (c : Int) (m : MessageInHistory) :
    (b.publish c m).hasRoom c = true := by
  simp [publish, hasRoom, alist.get?_set_self]

theorem hasRoom_unsubscribe_self (b : Broker) (c : Int) (t : Nat) :
    ((b.unsubscribe c t).1).hasRoom c = true := by
  simp only [unsubscribe]
  cases hr : alist.get?
      ((alist.get? (alist.touch b.subscribers c []) c).getD []) t with
  | some q => simp [hasRoom, alist.get?_set_self]
  | none => simp [hasRoom, alist.get?_touch_self]

theorem hasRoom_step_mono (b : Broker) (op : BrokerOp) (c : Int)
    (h : b.hasRoom c = true) : (b.step op).hasRoom c = true := by
  cases op with
  | sub c2 t2 => exact hasRoom_mk_set_touch b c c2 _ h
  | unsub c2 t2 =>
    show ((b.unsubscribe c2 t2).1).hasRoom c = true
    simp only [unsubscribe]
    cases hr : alist.get?
        ((alist.get? (alist.touch b.subscribers c2 []) c2).getD []) t2 with
    | some q => exact hasRoom_mk_set_touch b c c2 _ h
    | none => exact hasRoom_mk_touch b c c2 h
  | pub c2 m => exact hasRoom_mk_set_touch b c c2 _ h

theorem hasRoom_run_mono (b : Broker) (ops : List BrokerOp) (c : Int)
    (h : b.hasRoom c = true) : (b.run ops).hasRoom c = true := by
  induction ops generalizing b with
  | nil => simpa [run]
  | cons op rest ih =>
    have := ih (b.step op) (hasRoom_step_mono b op c h)
    simpa [run] using this

end Broker

namespace Config

theorem good_start : Good start := by
  refine ⟨?_, ?_, ?_, ?_, ?_⟩
  · intro p hp; simp [start] at hp
  · intro p hp; simp [start] at hp
  · intro rm hrm; simp [start] at hrm
  · intro p hp; simp [start] at hp
  · intro hq hm; simp [start] at hm

theorem room_bound (reg : List (Int × List (Nat × Nat))) (n : Nat) (c : Int)
    (hreg : ∀ rm ∈ reg, ∀ kv ∈ rm.2, kv.2 < n) :
    ∀ kv ∈ (alist.get? (alist.touch reg c []) c).getD [], kv.2 < n := by
  intro kv hkv
  rw [alist.get?_touch_self] at hkv
  simp only [Option.getD_some] at hkv
  cases hm : alist.get? reg c with
  | some room =>
    rw [hm] at hkv
    simp only [Option.getD_some] at hkv
    exact hreg (c, room) (alist.get?_mem _ _ _ hm) kv hkv
  | none => rw [hm] at hkv; simp at hkv

theorem registry_bound_touch (reg : List (Int × List (Nat × Nat))) (n : Nat)
    (c : Int) (hreg : ∀ rm ∈ reg, ∀ kv ∈ rm.2, kv.2 < n) :
    ∀ rm ∈ alist.touch reg c [], ∀ kv ∈ rm.2, kv.2 < n := by
  intro rm hrm kv hkv
  rcases alist.mem_touch _ _ _ _ hrm with h1 | h1
  · exact hreg rm h1 kv hkv
  · subst h1; simp at hkv

theorem registry_bound_set_touch (reg : List (Int × List (Nat × Nat)))
    (n : Nat) (c : Int) (room2 : List (Nat × Nat))
    (hreg : ∀ rm ∈ reg, ∀ kv ∈ rm.2, kv.2 < n)
    (hroom : ∀ kv ∈ room2, kv.2 < n) :
    ∀ rm ∈ alist.set (alist.touch reg c []) c room2, ∀ kv ∈ rm.2,
      kv.2 < n := by
  intro rm hrm kv hkv
  rcases alist.mem_set _ _ _ _ hrm with h1 | h1
  · exact registry_bound_touch reg n c hreg rm h1 kv hkv
  · subst h1; exact hroom kv hkv

theorem good_doAct (cfg cfg2 : Config) (a : Act) (hg : Good cfg)
    (h : cfg.doAct a = some cfg2) : Good cfg2 := by
  unfold Good at hg ⊢
  obtain ⟨hg1, hg2, hg3, hg4, hg5⟩ := hg
  cases a with
  | sub c t =>
    simp only [doAct, Option.some.injEq] at h
    subst h
    refine ⟨hg1, ?_, ?_, ?_, ?_⟩
    · intro p hp q hq hnq
      have hold := hg2 p hp q hq hnq
      cases hm : alist.get? cfg.heap q with
      | none => rw [hm] at hold; simp at hold
      | some l =>
        rw [hm] at hold
        show p.msg ∈ (alist.get? (cfg.heap ++ [(cfg.nextQ, [])]) q).getD []
        rw [alist.get?_append_of_some _ _ _ _ hm]
        exact hold
    · exact registry_bound_set_touch cfg.registry (cfg.nextQ + 1) c _
        (fun rm hrm kv hkv => Nat.lt_succ_of_lt (hg3 rm hrm kv hkv))
        (fun kv hkv => by
          rcases alist.mem_set _ _ _ _ hkv with h1 | h1
          · exact Nat.lt_succ_of_lt
              (room_bound cfg.registry cfg.nextQ c hg3 kv h1)
          · rw [h1]; exact Nat.lt_succ_self _)
    · exact fun p hp q hq => Nat.lt_succ_of_lt (hg4 p hp q hq)
    · intro hq hm
      rcases List.mem_append.mp hm with h1 | h1
      · exact Nat.lt_succ_of_lt (hg5 hq h1)
      · rw [List.mem_singleton.mp h1]; exact Nat.lt_succ_self _
  | unsub c t =>
    simp only [doAct] at h
    cases hr : alist.get?
        ((alist.get? (alist.touch cfg.registry c []) c).getD []) t with
    | none => rw [hr] at h; simp at h
    | some v =>
      rw [hr] at h
      simp only [Option.some.injEq] at h
      subst h
      refine ⟨hg1, hg2, ?_, hg4, hg5⟩
      exact registry_bound_set_touch cfg.registry cfg.nextQ c _ hg3
        (fun kv hkv => room_bound cfg.registry cfg.nextQ c hg3 kv
          (alist.mem_pop _ _ _ hkv))
  | pubStart c m =>
    simp only [doAct, Option.some.injEq] at h
    subst h
    refine ⟨?_, ?_, ?_, ?_, hg5⟩
    · intro p hp q hq
      rcases List.mem_append.mp hp with h1 | h1
      · exact hg1 p h1 q hq
      · rw [List.mem_singleton.mp h1] at hq ⊢
        exact hq
    · intro p hp q hq hnq
      rcases List.mem_append.mp hp with h1 | h1
      · exact hg2 p h1 q hq hnq
      · rw [List.mem_singleton.mp h1] at hq hnq
        exact absurd hq hnq
    · exact registry_bound_touch cfg.registry cfg.nextQ c hg3
    · intro p hp q hq
      rcases List.mem_append.mp hp with h1 | h1
      · exact hg4 p h1 q hq
      · rw [List.mem_singleton.mp h1] at hq
        have hq2 : q ∈ ((alist.get? (alist.touch cfg.registry c []) c).getD
            []).map (fun kv => kv.2) := hq
        obtain ⟨kv, hkv, hkv2⟩ := List.mem_map.mp hq2
        rw [← hkv2]
        exact room_bound cfg.registry cfg.nextQ c hg3 kv hkv
  | pubPut i =>
    simp only [doAct] at h
    cases hp : cfg.pending.get? i with
    | none => rw [hp] at h; simp at h
    | some p =>
      rw [hp] at h
      simp only [] at h
      cases hrem : p.remaining with
      | nil => rw [hrem] at h; simp at h
      | cons q0 rest =>
        rw [hrem] at h
        simp only [Option.some.injEq] at h
        subst h
        have hpmem : p ∈ cfg.pending := List.get?_mem hp
        have hq0rem : q0 ∈ p.remaining := by
          rw [hrem]; exact List.mem_cons_self _ _
        have hq0snap : q0 ∈ p.snapshot := hg1 p hpmem q0 hq0rem
        refine ⟨?_, ?_, hg3, ?_, ?_⟩
        · intro p3 hp3 q hq
          rcases List.mem_or_eq_of_mem_set hp3 with h1 | h1
          · exact hg1 p3 h1 q hq
          · subst h1
            exact hg1 p hpmem q
              (by rw [hrem]; exact List.mem_cons_of_mem _ hq)
        · intro p3 hp3 q hq hnq
          rcases List.mem_or_eq_of_mem_set hp3 with h1 | h1
          · by_cases hqq : q = q0
            · subst hqq
              show p3.msg ∈ (alist.get? (alist.set cfg.heap q
                  ((alist.get? cfg.heap q).getD [] ++ [p.msg])) q).getD []
              rw [alist.get?_set_self]
              simp only [Option.getD_some]
              exact List.mem_append_left _ (hg2 p3 h1 q hq hnq)
            · show p3.msg ∈ (alist.get? (alist.set cfg.heap q0
                  ((alist.get? cfg.heap q0).getD [] ++ [p.msg])) q).getD []
              rw [alist.get?_set_ne _ _ _ _ hqq]
              exact hg2 p3 h1 q hq hnq
          · subst h1
            by_cases hqq : q = q0
            · subst hqq
              show p.msg ∈ (alist.get? (alist.set cfg.heap q
                  ((alist.get? cfg.heap q).getD [] ++ [p.msg])) q).getD []
              rw [alist.get?_set_self]
              simp only [Option.getD_some]
              exact List.mem_append_right _ (List.mem_singleton.mpr rfl)
            · show p.msg ∈ (alist.get? (alist.set cfg.heap q0
                  ((alist.get? cfg.heap q0).getD [] ++ [p.msg])) q).getD []
              rw [alist.get?_set_ne _ _ _ _ hqq]
              refine hg2 p hpmem q hq ?_
              rw [hrem]
              intro hmem
              rcases List.mem_cons.mp hmem with h2 | h2
              · exact hqq h2
              · exact hnq h2
        · intro p3 hp3 q hq
          rcases List.mem_or_eq_of_mem_set hp3 with h1 | h1
          · exact hg4 p3 h1 q hq
          · subst h1
            exact hg4 p hpmem q hq
        · intro hq hm
          rcases alist.mem_set _ _ _ _ hm with h1 | h1
          · exact hg5 hq h1
          · rw [h1]
            exact hg4 p hpmem q0 hq0snap

theorem good_runActs (cfg cfg2 : Config) (tr : List Act) (hg : Good cfg)
    (h : cfg.runActs tr = some cfg2) : Good cfg2 := by
  induction tr generalizing cfg with
  | nil =>
    simp only [runActs, Option.some.injEq] at h
    subst h
    exact hg
  | cons a rest ih =>
    simp only [runActs] at h
    cases hd : cfg.doAct a with
    | none => rw [hd] at h; simp at h
    | some cfg3 =>
      rw [hd] at h
      exact ih cfg3 (good_doAct cfg cfg3 a hg hd) h

end Config

/-- C1: for every sequence of subscribe/publish/unsubscribe operations on
one room and every token, every message published to that room between that
token's subscribe and its unsubscribe is enqueued into that token's queue
exactly once, and the messages appear in the queue in the order the publish
calls were invoked: after the subscribe, any operation sequence that does
not subscribe or unsubscribe this token again leaves the token's queue
holding exactly the messages published to the room, in publish order. -/
theorem claim_C1_delivery_exactly_once_in_order (b : Broker) (c : Int)
    (t : Nat) (ops : List BrokerOp)
    (h : ∀ op ∈ ops, op ≠ BrokerOp.sub c t ∧ op ≠ BrokerOp.unsub c t) :
    (((b.subscribe c t).1).run ops).queueOf c t
      = some (Broker.pubsTo c ops) := by
  have := Broker.queueOf_run (b.subscribe c t).1 c t [] ops
    (Broker.queueOf_subscribe_self b c t) h
  simpa using this

/-- Witness for C1 at a concrete interleaving: token 9 subscribes to room 1,
then a publish to room 1, a subscribe of another token, a publish to
another room and a second publish to room 1 happen; token 9's queue holds
exactly the two room-1 messages in publish order. -/
theorem claim_C1_witness :
    (∀ op ∈ ([BrokerOp.pub 1 msgHi, BrokerOp.sub 1 5, BrokerOp.pub 2 msgHi,
        BrokerOp.pub 1 msgBye] : List BrokerOp),
      op ≠ BrokerOp.sub 1 9 ∧ op ≠ BrokerOp.unsub 1 9) ∧
    (((Broker.init.subscribe 1 9).1).run
        [BrokerOp.pub 1 msgHi, BrokerOp.sub 1 5, BrokerOp.pub 2 msgHi,
          BrokerOp.pub 1 msgBye]).queueOf 1 9
      = some (Broker.pubsTo 1
        [BrokerOp.pub 1 msgHi, BrokerOp.sub 1 5, BrokerOp.pub 2 msgHi,
          BrokerOp.pub 1 msgBye]) :=
  ⟨by decide,
   claim_C1_delivery_exactly_once_in_order Broker.init 1 9
     [BrokerOp.pub 1 msgHi, BrokerOp.sub 1 5, BrokerOp.pub 2 msgHi,
       BrokerOp.pub 1 msgBye] (by decide)⟩

/-- C2: after `unsubscribe(roomID, token)` returns, no message published to
that room strictly afterwards is ever enqueued into that token's queue (the
token has no registered queue, and no operation other than a new subscribe
of the same token can give it one); and the concrete scenario: token 0
subscribes to room 7, `msgHi` is published there and is the only content of
its queue; after the unsubscribe and a publish of `msgBye` to room 7, the
broker holds no queue at all — in particular the token gained nothing. -/
theorem claim_C2_no_delivery_after_unsubscribe (b : Broker) (c : Int)
    (t : Nat) (ops : List BrokerOp)
    (h : ∀ op ∈ ops, op ≠ BrokerOp.sub c t) :
    (((b.unsubscribe c t).1).run ops).queueOf c t = none ∧
    ((Broker.init.subscribe 7 0).1.publish 7 msgHi).queueOf 7 0
      = some [msgHi] ∧
    ((((Broker.init.subscribe 7 0).1.publish 7 msgHi).unsubscribe 7 0).1.publish
        7 msgBye).subscribers = [(7, [])] := by
  refine ⟨?_, by decide, by decide⟩
  exact Broker.queueOf_run_none _ c t ops
    (Broker.queueOf_unsubscribe_self b c t) h

/-- Witness for C2: the unsubscribe of the scenario followed by the later
publish leaves token 0 with no registered queue. -/
theorem claim_C2_witness :
    (∀ op ∈ ([BrokerOp.pub 7 msgBye] : List BrokerOp),
      op ≠ BrokerOp.sub 7 0) ∧
    ((((Broker.init.subscribe 7 0).1.publish 7 msgHi).unsubscribe 7 0).1.run
        [BrokerOp.pub 7 msgBye]).queueOf 7 0 = none :=
  ⟨by decide,
   (claim_C2_no_delivery_after_unsubscribe
     ((Broker.init.subscribe 7 0).1.publish 7 msgHi) 7 0
     [BrokerOp.pub 7 msgBye] (by decide)).1⟩

/-- C5: for every listen session — whichever way the loop exits (clean
websocket disconnect, transport error, or cancellation) — the session calls
`unsubscribe` exactly once for its token, after its one `subscribe`, and
the subscription acquired at setup is released: the token has no registered
queue in the final broker state. -/
theorem claim_C5_session_always_unsubscribes (b : Broker) (c : Int) (t : Nat)
    (e : SessionExit) :
    ((listen_session b c t e).2.2).count (BrokerOp.unsub c t) = 1 ∧
    (listen_session b c t e).2.2
      = [BrokerOp.sub c t, BrokerOp.unsub c t] ∧
    ((listen_session b c t e).1).queueOf c t = none := by
  refine ⟨?_, rfl, ?_⟩
  · simp [listen_session, List.count_cons]
  · show (((b.subscribe c t).1).unsubscribe c t).1.queueOf c t = none
    exact Broker.queueOf_unsubscribe_self _ c t

/-- C6: for every message-post request, the persistence operation commits
the message before the broker's `publish` is invoked with it: the event log
is exactly commit-then-publish for the same row, the store already passed
on by the endpoint contains the row, and the broker fan-out receives
exactly the committed row's data. -/
theorem claim_C6_persist_commits_before_publish (db : DB) (b : Broker)
    (text : String) (user : UserPublic) (c : Int) (now : Int) :
    (post_message_to_chat db b text user c now).2.2.2
      = [ServerEvent.commit (create_message db text user.id c now).2,
         ServerEvent.publishInvoked c
           (from_orm (create_message db text user.id c now).2 user)] ∧
    (create_message db text user.id c now).2
      ∈ (post_message_to_chat db b text user c now).1.messages ∧
    (post_message_to_chat db b text user c now).2.1
      = b.publish c (from_orm (create_message db text user.id c now).2 user) := by
  refine ⟨rfl, ?_, rfl⟩
  show (create_message db text user.id c now).2
    ∈ (create_message db text user.id c now).1.messages
  simp [create_message]

/-- C7: publishing to a room whose subscriber mapping is empty (or absent)
succeeds as a no-op: the only state change is the `defaultdict` access that
creates the (empty) registry entry if needed, and no queue anywhere
receives anything. -/
theorem claim_C7_publish_empty_room_noop (b : Broker) (c : Int)
    (m : MessageInHistory) (h : b.roomOf c = []) :
    (b.publish c m).subscribers = alist.touch b.subscribers c [] ∧
    ∀ (c2 : Int) (t : Nat), (b.publish c m).queueOf c2 t = b.queueOf c2 t := by
  have htouch : alist.get? (alist.touch b.subscribers c []) c = some [] := by
    rw [alist.get?_touch_self]
    rw [show (alist.get? b.subscribers c).getD [] = b.roomOf c from rfl, h]
  constructor
  · show alist.set (alist.touch b.subscribers c []) c
      (((alist.get? (alist.touch b.subscribers c []) c).getD []).map
        (fun kv => (kv.1, kv.2 ++ [m]))) = alist.touch b.subscribers c []
    rw [show ((alist.get? (alist.touch b.subscribers c []) c).getD []).map
        (fun kv => (kv.1, kv.2 ++ [m])) = [] by rw [htouch]; rfl]
    exact alist.set_self_of_get? _ _ _ htouch
  · intro c2 t
    by_cases hc : c2 = c
    · subst hc
      rw [Broker.queueOf_publish_self]
      rw [show b.queueOf c2 t = none from by
        rw [Broker.queueOf_eq_roomOf, h]; rfl]
      rfl
    · exact Broker.queueOf_publish_ne b c m c2 t hc

/-- Witness for C7: a broker with one subscriber in room 2 publishes to the
never-subscribed room 1; the publish only creates the empty entry for room
1 and leaves the room-2 subscriber's queue unchanged. -/
theorem claim_C7_witness :
    (Broker.init.subscribe 2 5).1.roomOf 1 = [] ∧
    ((Broker.init.subscribe 2 5).1.publish 1 msgHi).subscribers
      = alist.touch (Broker.init.subscribe 2 5).1.subscribers 1 [] ∧
    ((Broker.init.subscribe 2 5).1.publish 1 msgHi).queueOf 2 5
      = (Broker.init.subscribe 2 5).1.queueOf 2 5 := by
  refine ⟨by decide, ?_, ?_⟩
  · exact (claim_C7_publish_empty_room_noop (Broker.init.subscribe 2 5).1 1
      msgHi (by decide)).1
  · exact (claim_C7_publish_empty_room_noop (Broker.init.subscribe 2 5).1 1
      msgHi (by decide)).2 2 5

/-- C8: publishing a message to room `c` leaves the queue of every token in
every other room unchanged — subscribers on different rooms never observe
each other's messages. -/
theorem claim_C8_publish_frames_other_rooms (b : Broker) (c c2 : Int)
    (m : MessageInHistory) (t : Nat) (h : c2 ≠ c) :
    (b.publish c m).queueOf c2 t = b.queueOf c2 t :=
  Broker.queueOf_publish_ne b c m c2 t h

/-- Witness for C8: with subscribers in rooms 3 and 4, publishing to room 3
leaves the room-4 subscriber's queue unchanged. -/
theorem claim_C8_witness :
    ((4 : Int) ≠ 3) ∧
    ((((Broker.init.subscribe 3 1).1.subscribe 4 2).1.publish 3 msgBye).queueOf
        4 2
      = ((Broker.init.subscribe 3 1).1.subscribe 4 2).1.queueOf 4 2) :=
  ⟨by decide,
   claim_C8_publish_frames_other_rooms
     ((Broker.init.subscribe 3 1).1.subscribe 4 2).1 3 4 msgBye 2 (by decide)⟩

/-- C9 counterexample: on a fresh broker, a single publish to room 1 — with
no subscribe to room 1 ever performed — already creates room 1's registry
entry, so registry entries are not created (only) on first subscribe. -/
theorem claim_C9_counterexample :
    Broker.init.hasRoom 1 = false ∧
    (Broker.init.publish 1 msgHi).subscribers = [(1, [])] ∧
    (Broker.init.publish 1 msgHi).hasRoom 1 = true := by
  decide

/-- C9 (amended): a room's registry entry is created lazily on the first
broker operation that touches the room — subscribe, unsubscribe, or publish
(each performs the `defaultdict` access) — and is never deleted by any
operation afterwards; unsubscribe only removes tokens from the room's
mapping (other tokens' queues are untouched), so the entry may remain
present and empty after the last unsubscribe, for the lifetime of the
process. -/
theorem claim_C9_amended_registry_entry_lifecycle (b : Broker) (c : Int)
    (t : Nat) (m : MessageInHistory) (ops : List BrokerOp) :
    (b.subscribe c t).1.hasRoom c = true ∧
    (b.unsubscribe c t).1.hasRoom c = true ∧
    (b.publish c m).hasRoom c = true ∧
    (b.hasRoom c = true → (b.run ops).hasRoom c = true) ∧
    (∀ t2, t2 ≠ t → (b.unsubscribe c t).1.queueOf c t2 = b.queueOf c t2) := by
  refine ⟨Broker.hasRoom_subscribe_self b c t,
    Broker.hasRoom_unsubscribe_self b c t,
    Broker.hasRoom_publish_self b c m,
    fun h => Broker.hasRoom_run_mono b ops c h,
    fun t2 ht => Broker.queueOf_unsubscribe_ne b c t c t2 ?_⟩
  rintro ⟨-, rfl⟩
  exact ht rfl

/-- Witness for C9 (amended): room 3's entry, created by a subscribe,
survives the unsubscribe of its only token; and unsubscribing token 9 does
not touch token 5's queue. -/
theorem claim_C9_amended_witness :
    ((Broker.init.subscribe 3 5).1.run [BrokerOp.unsub 3 5]).hasRoom 3
      = true ∧
    ((Broker.init.subscribe 3 5).1.unsubscribe 3 9).1.queueOf 3 5
      = (Broker.init.subscribe 3 5).1.queueOf 3 5 :=
  ⟨(claim_C9_amended_registry_entry_lifecycle (Broker.init.subscribe 3 5).1 3
      9 msgHi [BrokerOp.unsub 3 5]).2.2.2.1 (by decide),
   (claim_C9_amended_registry_entry_lifecycle (Broker.init.subscribe 3 5).1 3
      9 msgHi [BrokerOp.unsub 3 5]).2.2.2.2 5 (by decide)⟩

/-- C10: if a token is not present in a room's subscriber mapping,
`Broker.unsubscribe` raises `KeyError` (modelled by the `false` result) —
in particular a second unsubscribe of the same token always raises — while
leaving every existing queue unchanged; as a side effect the `defaultdict`
access creates an (empty) registry entry for the room if it had none. -/
theorem claim_C10_unsubscribe_unknown_token_raises (b : Broker) (c : Int)
    (t : Nat) (h : b.queueOf c t = none) :
    (b.unsubscribe c t).2 = false ∧
    (∀ t2, ((b.unsubscribe c t2).1.unsubscribe c t2).2 = false) ∧
    (∀ c2 t2, (b.unsubscribe c t).1.queueOf c2 t2 = b.queueOf c2 t2) ∧
    (b.unsubscribe c t).1.hasRoom c = true ∧
    (b.hasRoom c = false → (b.unsubscribe c t).1.roomOf c = []) := by
  refine ⟨Broker.unsubscribe_raises b c t h,
    fun t2 => Broker.unsubscribe_raises _ c t2
      (Broker.queueOf_unsubscribe_self b c t2),
    fun c2 t2 => Broker.unsubscribe_raise_preserves b c t h c2 t2,
    Broker.hasRoom_unsubscribe_self b c t, ?_⟩
  intro hroom
  have h0 : b.roomOf c = [] := by
    unfold Broker.roomOf
    unfold Broker.hasRoom at hroom
    cases hm : alist.get? b.subscribers c with
    | some r => rw [hm] at hroom; simp at hroom
    | none => rfl
  rw [Broker.roomOf_unsubscribe_self, h0]
  rfl

/-- Witness for C10: with token 5 subscribed to room 1, unsubscribing the
absent token 9 raises, keeps token 5's queue, and keeps the room entry;
unsubscribing the absent room 6 creates its empty entry. -/
theorem claim_C10_witness :
    (Broker.init.subscribe 1 5).1.queueOf 1 9 = none ∧
    ((Broker.init.subscribe 1 5).1.unsubscribe 1 9).2 = false ∧
    ((Broker.init.subscribe 1 5).1.unsubscribe 1 9).1.queueOf 1 5
      = (Broker.init.subscribe 1 5).1.queueOf 1 5 ∧
    ((Broker.init.subscribe 1 5).1.unsubscribe 1 9).1.hasRoom 1 = true ∧
    ((Broker.init.subscribe 1 5).1.unsubscribe 6 9).1.roomOf 6 = [] := by
  refine ⟨by decide, ?_, ?_, ?_, ?_⟩
  · exact (claim_C10_unsubscribe_unknown_token_raises
      (Broker.init.subscribe 1 5).1 1 9 (by decide)).1
  · exact (claim_C10_unsubscribe_unknown_token_raises
      (Broker.init.subscribe 1 5).1 1 9 (by decide)).2.2.1 1 5
  · exact (claim_C10_unsubscribe_unknown_token_raises
      (Broker.init.subscribe 1 5).1 1 9 (by decide)).2.2.2.1
  · exact (claim_C10_unsubscribe_unknown_token_raises
      (Broker.init.subscribe 1 5).1 6 9 (by decide)).2.2.2.2 (by decide)

/-- C3 counterexample: with token 5 subscribed to room 1, a publish starts
(its snapshot `[0]` is taken and its `put` task is scheduled) and token 5
unsubscribes before that task runs — a realizable asyncio interleaving,
since `publish` suspends at `await asyncio.gather(...)` after building the
task list.  The still-pending `put` is enabled, targets queue 0 although no
token of room 1 maps to it any more, and enqueues the message there: a
delivery to a removed token, so the claim as stated fails. -/
theorem claim_C3_counterexample :
    Config.start.runActs [Act.sub 1 5, Act.pubStart 1 msgHi, Act.unsub 1 5]
      = some cfgC3 ∧
    cfgC3.deliversToRemoved (Act.pubPut 0) = true ∧
    cfgC3.doAct (Act.pubPut 0)
      = some ⟨1, [(0, [msgHi])], [(1, [])], [⟨1, msgHi, [0], []⟩]⟩ := by
  decide

/-- C3 (amended): under every interleaving of subscribe, unsubscribe and
publish events, no event blocks or gets stuck: subscribing and invoking a
publish are always enabled, an in-flight publish with outstanding `put`
tasks can always make progress until its `gather` completes (the queues are
unbounded), and unsubscribing an absent token raises `KeyError` rather than
blocking.  Every enqueue performed by a publish targets a queue that was
registered in the room when that publish was invoked (its snapshot); a
token that unsubscribes between the snapshot and its individual enqueue may
however still receive the message, so delivery to a just-removed token is
possible (see the counterexample). -/
theorem claim_C3_amended_no_deadlock_and_snapshot_delivery (tr : List Act)
    (cfg : Config) (h : Config.start.runActs tr = some cfg) :
    (∀ c t, (cfg.doAct (Act.sub c t)).isSome = true) ∧
    (∀ c m, (cfg.doAct (Act.pubStart c m)).isSome = true) ∧
    (∀ i p, cfg.pending.get? i = some p → p.remaining ≠ [] →
      (cfg.doAct (Act.pubPut i)).isSome = true) ∧
    (∀ i p q rest, cfg.pending.get? i = some p → p.remaining = q :: rest →
      q ∈ p.snapshot) := by
  have hg := Config.good_runActs Config.start cfg tr Config.good_start h
  unfold Config.Good at hg
  obtain ⟨hg1, -, -, -, -⟩ := hg
  refine ⟨fun c t => rfl, fun c m => rfl, ?_, ?_⟩
  · intro i p hp hrem
    simp only [Config.doAct, hp]
    cases hr : p.remaining with
    | nil => exact absurd hr hrem
    | cons q0 rest => rfl
  · intro i p q rest hp hrem
    exact hg1 p (List.get?_mem hp) q
      (by rw [hrem]; exact List.mem_cons_self _ _)

/-- Witness for C3 (amended), at the counterexample configuration: the
pending `put` can run (no deadlock) and its target queue 0 is in the
publish's snapshot. -/
theorem claim_C3_amended_witness :
    (cfgC3.doAct (Act.pubPut 0)).isSome = true ∧
    (0 : Nat) ∈ (⟨1, msgHi, [0], [0]⟩ : PendingPub).snapshot :=
  ⟨(claim_C3_amended_no_deadlock_and_snapshot_delivery
      [Act.sub 1 5, Act.pubStart 1 msgHi, Act.unsub 1 5] cfgC3
      (by decide)).2.2.1 0 ⟨1, msgHi, [0], [0]⟩ (by decide) (by decide),
   (claim_C3_amended_no_deadlock_and_snapshot_delivery
      [Act.sub 1 5, Act.pubStart 1 msgHi, Act.unsub 1 5] cfgC3
      (by decide)).2.2.2 0 ⟨1, msgHi, [0], [0]⟩ 0 [] (by decide) (by decide)⟩

/-- C4: `publish` snapshots the room's subscriber queues at call time
(invoking it appends a pending publish whose snapshot — and task list — is
exactly the list of queue ids registered for the room at that moment); once
all its `put` tasks have run (which is when its `gather` returns), the
message is in every snapshotted queue; each individual `put` targets only
snapshotted queues; and a subscribe performed after the snapshot allocates
the fresh queue id `cfg.nextQ`, registered and empty, which no in-flight
publish's snapshot contains — so a subscriber that joins after the snapshot
does not receive that message. -/
theorem claim_C4_publish_snapshot_fanout (tr : List Act) (cfg : Config)
    (h : Config.start.runActs tr = some cfg) :
    (∀ p ∈ cfg.pending, p.remaining = [] →
      ∀ q ∈ p.snapshot, p.msg ∈ (alist.get? cfg.heap q).getD []) ∧
    (∀ c m cfg2, cfg.doAct (Act.pubStart c m) = some cfg2 →
      cfg2.pending = cfg.pending ++
        [⟨c, m, ((alist.get? cfg.registry c).getD []).map (fun kv => kv.2),
          ((alist.get? cfg.registry c).getD []).map (fun kv => kv.2)⟩]) ∧
    (∀ i p q rest, cfg.pending.get? i = some p → p.remaining = q :: rest →
      q ∈ p.snapshot) ∧
    (∀ p ∈ cfg.pending, cfg.nextQ ∉ p.snapshot) ∧
    (∀ c t cfg2, cfg.doAct (Act.sub c t) = some cfg2 →
      alist.get? ((alist.get? cfg2.registry c).getD []) t = some cfg.nextQ ∧
      alist.get? cfg2.heap cfg.nextQ = some []) := by
  have hg := Config.good_runActs Config.start cfg tr Config.good_start h
  unfold Config.Good at hg
  obtain ⟨hg1, hg2, hg3, hg4, hg5⟩ := hg
  refine ⟨?_, ?_, ?_, ?_, ?_⟩
  · intro p hp hrem q hq
    refine hg2 p hp q hq ?_
    rw [hrem]
    exact List.not_mem_nil q
  · intro c m cfg2 hact
    simp only [Config.doAct, Option.some.injEq] at hact
    subst hact
    show cfg.pending ++ [(⟨c, m,
        ((alist.get? (alist.touch cfg.registry c []) c).getD []).map
          (fun kv => kv.2),
        ((alist.get? (alist.touch cfg.registry c []) c).getD []).map
          (fun kv => kv.2)⟩ : PendingPub)]
      = cfg.pending ++ [⟨c, m,
        ((alist.get? cfg.registry c).getD []).map (fun kv => kv.2),
        ((alist.get? cfg.registry c).getD []).map (fun kv => kv.2)⟩]
    rw [alist.getD_touch]
  · intro i p q rest hp hrem
    exact hg1 p (List.get?_mem hp) q
      (by rw [hrem]; exact List.mem_cons_self _ _)
  · intro p hp hmem
    exact Nat.lt_irrefl _ (hg4 p hp _ hmem)
  · intro c t cfg2 hact
    simp only [Config.doAct, Option.some.injEq] at hact
    subst hact
    constructor
    · show alist.get? ((alist.get? (alist.set (alist.touch cfg.registry c [])
          c (alist.set ((alist.get? (alist.touch cfg.registry c []) c).getD
            []) t cfg.nextQ)) c).getD []) t = some cfg.nextQ
      rw [alist.get?_set_self]
      simp only [Option.getD_some]
      exact alist.get?_set_self _ _ _
    · show alist.get? (cfg.heap ++ [(cfg.nextQ, [])]) cfg.nextQ = some []
      rw [alist.get?_append_of_none _ _ _ (alist.get?_eq_none cfg.heap
        cfg.nextQ (fun kv hm => Nat.ne_of_lt (hg5 kv hm)))]
      simp [alist.get?]

/-- Witness for C4: after a subscribe, a publish and its completed `put`,
the message sits in the snapshotted queue 0, and the next queue id 1 is in
no pending snapshot. -/
theorem claim_C4_witness :
    msgHi ∈ (alist.get? cfgC4.heap 0).getD [] ∧
    (1 : Nat) ∉ (⟨1, msgHi, [0], []⟩ : PendingPub).snapshot :=
  ⟨(claim_C4_publish_snapshot_fanout
      [Act.sub 1 5, Act.pubStart 1 msgHi, Act.pubPut 0] cfgC4 (by decide)).1
      ⟨1, msgHi, [0], []⟩ (by decide) (by decide) 0 (by decide),
   (claim_C4_publish_snapshot_fanout
      [Act.sub 1 5, Act.pubStart 1 msgHi, Act.pubPut 0] cfgC4
      (by decide)).2.2.2.1 ⟨1, msgHi, [0], []⟩ (by decide)⟩

end CliChat
